import Mathlib

/-!
# Verification of the Sprintly pipeline core

Shallow embedding of the Sprintly repository's core components
(programmatic validator, repair-patch application, verifier repair loop,
pipeline orchestrator, response normalizer, retry backoff, capacity gate)
together with theorems settling the specification claims.

JavaScript semantics are modelled explicitly:
* strings are Lean `String`s (all concrete inputs used in theorems are ASCII,
  where JS `toLowerCase`/`trim` agree with the models below);
* `Map` objects are association lists with JS insertion-order semantics
  (setting an existing key updates the value in place, a new key is appended);
* `Set` objects that are used only through membership/size/add/delete are
  modelled as `Finset`;
* `Math.random()` draws are explicit rational parameters in `[0,1)`.
-/

namespace Sprintly

/-- A generated file: `ProjectFile` from `tools/projectBuilder.ts` (`{path, content}`). -/
structure ProjectFile where
  path : String
  content : String
deriving DecidableEq, Repr

/-! ## Capacity gate (`CapacityGate` class)

The JS class keeps `private active = new Set<string>()` and a `limit`.
Only membership, size, add and delete are used, so the active set is
modelled as a `Finset String`. -/

/-- The `CapacityGate` class: a concurrency guard tracking active job ids
against a fixed limit. -/
structure CapacityGate where
  limit : Nat
  active : Finset String

namespace CapacityGate

/-- `size()`: current active count (`this.active.size`). -/
def size (g : CapacityGate) : Nat := g.active.card

/-- `has(id)`: whether an id is already being processed (`this.active.has(id)`). -/
def has (g : CapacityGate) (id : String) : Bool := decide (id ∈ g.active)

/-- `atCapacity()`: whether `this.active.size >= this.limit`. -/
def atCapacity (g : CapacityGate) : Bool := decide (g.limit ≤ g.active.card)

/-- `tryEnter(id)`: returns false (without adding) if the id is already active
or the gate is at capacity; otherwise adds the id and returns true.
Modelled state-passing style: the returned pair is (result, new state). -/
def tryEnter (g : CapacityGate) (id : String) : Bool × CapacityGate :=
  if g.has id || g.atCapacity then (false, g)
  else (true, { g with active := insert id g.active })

/-- `exit(id)`: remove the id from the active set (`this.active.delete(id)`);
safe to call even if the id is not active. -/
def exit (g : CapacityGate) (id : String) : CapacityGate :=
  { g with active := g.active.erase id }

end CapacityGate

/-- C3: for a gate with ceiling 1 and initially empty, `tryEnter "a"` returns true;
while "a" is active `tryEnter "b"` returns false; after `exit "a"`, `tryEnter "b"`
returns true; `tryEnter "a"` twice in a row returns true then false. In general
`tryEnter id` returns false leaving the state unchanged exactly when the id is
already active or the active count has reached the ceiling (otherwise it admits
the id), and `exit id` is an idempotent removal. -/
theorem capacityGate_spec :
    ((((CapacityGate.mk 1 ∅).tryEnter "a").1 = true
        ∧ ((((CapacityGate.mk 1 ∅).tryEnter "a").2).tryEnter "b").1 = false
        ∧ (((((CapacityGate.mk 1 ∅).tryEnter "a").2).exit "a").tryEnter "b").1 = true
        ∧ ((((CapacityGate.mk 1 ∅).tryEnter "a").2).tryEnter "a").1 = false)
      ∧ (∀ (g : CapacityGate) (id : String),
          ((g.tryEnter id).1 = false ∧ (g.tryEnter id).2 = g)
            ↔ (g.has id = true ∨ g.atCapacity = true)))
      ∧ (∀ (g : CapacityGate) (id : String),
          (g.tryEnter id).1 = true → (g.tryEnter id).2.active = insert id g.active)
      ∧ (∀ (g : CapacityGate) (id : String),
          (g.exit id).exit id = g.exit id ∧ (g.exit id).has id = false) := by
  refine ⟨⟨⟨?_, ?_, ?_, ?_⟩, ?_⟩, ?_, ?_⟩
  · decide
  · decide
  · decide
  · decide
  · intro g id
    constructor
    · rintro ⟨hfalse, -⟩
      by_contra hor
      push_neg at hor
      have h : (g.has id || g.atCapacity) = false := by
        cases hh : g.has id <;> cases hc : g.atCapacity <;> simp_all
      simp [CapacityGate.tryEnter, h] at hfalse
    · intro hor
      have h : (g.has id || g.atCapacity) = true := Bool.or_eq_true .. |>.mpr hor
      simp [CapacityGate.tryEnter, h]
  · intro g id htrue
    unfold CapacityGate.tryEnter at *
    by_cases h : (g.has id || g.atCapacity) = true
    · simp [h] at htrue
    · simp [h]
  · intro g id
    constructor
    · show CapacityGate.mk g.limit ((g.active.erase id).erase id)
        = CapacityGate.mk g.limit (g.active.erase id)
      rw [Finset.erase_idem]
    · simp [CapacityGate.exit, CapacityGate.has]

/-- C3 witness: the admitted-state clause at a concrete gate. -/
theorem capacityGate_spec_witness :
    ((CapacityGate.mk 2 ∅).tryEnter "a").2.active = insert "a" ∅ :=
  capacityGate_spec.2.1 (CapacityGate.mk 2 ∅) "a" (by decide)

/-! ## Path normalization and the JS `Map` model

`normalisePath` from `prompts/verifier.ts`:
`href.replace(/^\.\//, "").replace(/\\/g, "/")`.
The first `replace` has a non-global anchored regex, so it strips at most one
leading "./"; the second is global, turning every backslash into "/". -/

/-- `normalisePath(href)`: strip one leading "./", then replace every
backslash with a forward slash. (Char-list level, so that the kernel can
evaluate it on concrete inputs.) -/
def normalisePath (href : String) : String :=
  let l := if ['.', '/'].isPrefixOf href.data then href.data.drop 2 else href.data
  ⟨l.map fun c => if c = '\\' then '/' else c⟩

/-- One JS `Map.set(k, v)` step on an association list: update the first
occurrence of the key in place (a JS `Map` holds each key at most once, at its
original insertion position), else append the new entry. -/
def mapSet : List (String × String) → String → String → List (String × String)
  | [], k, v => [(k, v)]
  | e :: m, k, v => if e.1 = k then (k, v) :: m else e :: mapSet m k v

/-- Fold a list of `(key, value)` pairs into a map with repeated `Map.set`. -/
def mapSetAll (m : List (String × String)) (l : List (String × String)) :
    List (String × String) :=
  l.foldl (fun acc e => mapSet acc e.1 e.2) m

/-- `new Map(pairs)`: sequential `set` of each pair into an empty map. -/
def mapFromPairs (l : List (String × String)) : List (String × String) :=
  mapSetAll [] l

/-- `Map.get(k)` (JS `undefined` modelled as `none`): value of the entry
holding the key, if any. -/
def mapGet : List (String × String) → String → Option String
  | [], _ => none
  | e :: m, k => if e.1 = k then some e.2 else mapGet m k

/-- Keys of a map, in insertion order. -/
def keysOf (m : List (String × String)) : List String := m.map Prod.fst

/-- `applyFixes` from `prompts/verifier.ts`: build a `Map` keyed by normalized
path from the base files, then `set(normalisePath(fix.path), fix.content)` for
each fix (overwrite-or-insert), and return the entries as a file list. -/
def applyFixes (files : List ProjectFile) (fixedFiles : List ProjectFile) :
    List ProjectFile :=
  (mapSetAll (mapFromPairs (files.map fun f => (normalisePath f.path, f.content)))
      (fixedFiles.map fun fix => (normalisePath fix.path, fix.content))).map
    fun e => ⟨e.1, e.2⟩

/-! ### Map lemmas -/

theorem keysOf_mapSet (m : List (String × String)) (k v : String) :
    keysOf (mapSet m k v) = if k ∈ keysOf m then keysOf m else keysOf m ++ [k] := by
  induction m with
  | nil => simp [mapSet, keysOf]
  | cons e m ih =>
    by_cases h : e.1 = k
    · simp [mapSet, keysOf, h]
    · have hstep : keysOf (mapSet (e :: m) k v) = e.1 :: keysOf (mapSet m k v) := by
        simp [mapSet, keysOf, h]
      rw [hstep, ih, show keysOf (e :: m) = e.1 :: keysOf m from rfl]
      by_cases hm : k ∈ keysOf m
      · rw [if_pos hm, if_pos (show k ∈ e.1 :: keysOf m from List.mem_cons.mpr (Or.inr hm))]
      · rw [if_neg hm, if_neg (show k ∉ e.1 :: keysOf m from fun hc =>
          (List.mem_cons.mp hc).elim (fun h1 => h h1.symm) hm)]
        rfl

theorem mem_keysOf_mapSet_self (m : List (String × String)) (k v : String) :
    k ∈ keysOf (mapSet m k v) := by
  rw [keysOf_mapSet]
  by_cases h : k ∈ keysOf m <;> simp [h]

theorem mem_keysOf_mapSet_of_mem {m : List (String × String)} {x : String} (k v : String)
    (h : x ∈ keysOf m) : x ∈ keysOf (mapSet m k v) := by
  rw [keysOf_mapSet]
  by_cases hk : k ∈ keysOf m <;> simp [hk, h]

theorem mem_keysOf_mapSet {m : List (String × String)} {x : String} {k v : String}
    (h : x ∈ keysOf (mapSet m k v)) : x ∈ keysOf m ∨ x = k := by
  rw [keysOf_mapSet] at h
  by_cases hk : k ∈ keysOf m
  · simp only [hk, if_true] at h; exact Or.inl h
  · simp only [hk, if_false, List.mem_append, List.mem_singleton] at h; exact h

theorem nodup_keysOf_mapSet {m : List (String × String)} (k v : String)
    (h : (keysOf m).Nodup) : (keysOf (mapSet m k v)).Nodup := by
  by_cases hk : k ∈ keysOf m
  · rw [keysOf_mapSet, if_pos hk]; exact h
  · rw [keysOf_mapSet, if_neg hk]
    refine List.Nodup.append h (List.nodup_singleton k) ?_
    intro a ha hb
    rw [List.mem_singleton] at hb
    exact hk (hb ▸ ha)

theorem mapGet_mapSet (m : List (String × String)) (k v k' : String) :
    mapGet (mapSet m k v) k' = if k' = k then some v else mapGet m k' := by
  induction m with
  | nil =>
    by_cases h : k' = k
    · simp [mapSet, mapGet, h]
    · have h2 : k ≠ k' := fun hh => h hh.symm
      simp [mapSet, mapGet, h, h2]
  | cons e m ih =>
    by_cases he : e.1 = k
    · by_cases h : k' = k
      · simp [mapSet, mapGet, he, h]
      · have h2 : k ≠ k' := fun hh => h hh.symm
        have hek : e.1 ≠ k' := fun hh => h (hh.symm.trans he)
        simp [mapSet, mapGet, he, h, h2, hek]
    · by_cases h : e.1 = k'
      · have hne : k' ≠ k := fun hk => he (h.trans hk)
        simp [mapSet, mapGet, he, h, hne]
      · simp [mapSet, mapGet, he, h, ih]

theorem mapSet_append_of_not_mem {m : List (String × String)} {k : String} (v : String)
    (h : k ∉ keysOf m) : mapSet m k v = m ++ [(k, v)] := by
  induction m with
  | nil => simp [mapSet]
  | cons e m ih =>
    have h1 : e.1 ≠ k := fun he => h (List.mem_cons.mpr (Or.inl he.symm))
    have h2 : k ∉ keysOf m := fun hm => h (List.mem_cons.mpr (Or.inr hm))
    simp [mapSet, h1, ih h2]

theorem mapSet_mapSet (m : List (String × String)) (k v w : String) :
    mapSet (mapSet m k v) k w = mapSet m k w := by
  induction m with
  | nil => simp [mapSet]
  | cons e m ih =>
    by_cases he : e.1 = k
    · simp [mapSet, he]
    · simp [mapSet, he, ih]

theorem mapSet_comm {m : List (String × String)} {k a : String} (v b : String)
    (hne : a ≠ k) (hk : k ∈ keysOf m) :
    mapSet (mapSet m k v) a b = mapSet (mapSet m a b) k v := by
  induction m with
  | nil => simp [keysOf] at hk
  | cons e m ih =>
    by_cases hek : e.1 = k
    · have hea : e.1 ≠ a := fun h => hne (h.symm.trans hek)
      simp [mapSet, hek, hea, Ne.symm hne]
    · by_cases hea : e.1 = a
      · simp [mapSet, hek, hea, hne]
      · have hk' : k ∈ keysOf m := by
          rcases List.mem_cons.mp (show k ∈ e.1 :: keysOf m from hk) with h | h
          · exact absurd h.symm hek
          · exact h
        simp [mapSet, hek, hea, ih hk']

theorem mapSet_of_mapGet_eq {m : List (String × String)} {k v : String}
    (h : mapGet m k = some v) : mapSet m k v = m := by
  induction m with
  | nil => simp [mapGet] at h
  | cons e m ih =>
    by_cases he : e.1 = k
    · rw [mapGet, if_pos he] at h
      obtain rfl : e.2 = v := by simpa using h
      have hred : mapSet (e :: m) k e.2 = (k, e.2) :: m := by
        simp only [mapSet, if_pos he]
      rw [hred, ← he]
    · rw [mapGet, if_neg he] at h
      simp [mapSet, he, ih h]

theorem mem_keysOf_mapSetAll_of_mem {m l : List (String × String)} {x : String}
    (h : x ∈ keysOf m) : x ∈ keysOf (mapSetAll m l) := by
  induction l generalizing m with
  | nil => exact h
  | cons e t ih => exact ih (mem_keysOf_mapSet_of_mem e.1 e.2 h)

theorem mem_keysOf_mapSetAll_of_mem_arg {m l : List (String × String)} {e : String × String}
    (h : e ∈ l) : e.1 ∈ keysOf (mapSetAll m l) := by
  induction l generalizing m with
  | nil => simp at h
  | cons a t ih =>
    rcases List.mem_cons.mp h with h | h
    · rw [h]
      show a.1 ∈ keysOf (mapSetAll (mapSet m a.1 a.2) t)
      exact mem_keysOf_mapSetAll_of_mem (mem_keysOf_mapSet_self m a.1 a.2)
    · exact ih h

theorem mem_keysOf_mapSetAll {m l : List (String × String)} {x : String}
    (h : x ∈ keysOf (mapSetAll m l)) : x ∈ keysOf m ∨ x ∈ keysOf l := by
  induction l generalizing m with
  | nil => exact Or.inl h
  | cons e t ih =>
    rcases ih h with h' | h'
    · rcases mem_keysOf_mapSet h' with h'' | h''
      · exact Or.inl h''
      · exact Or.inr (List.mem_cons.mpr (Or.inl h''))
    · exact Or.inr (List.mem_cons.mpr (Or.inr h'))

theorem nodup_keysOf_mapSetAll {m l : List (String × String)}
    (h : (keysOf m).Nodup) : (keysOf (mapSetAll m l)).Nodup := by
  induction l generalizing m with
  | nil => exact h
  | cons e t ih => exact ih (nodup_keysOf_mapSet e.1 e.2 h)

theorem mapGet_mapSetAll_of_not_mem {m l : List (String × String)} {k : String}
    (h : ∀ e ∈ l, e.1 ≠ k) : mapGet (mapSetAll m l) k = mapGet m k := by
  induction l generalizing m with
  | nil => rfl
  | cons e t ih =>
    rw [show mapSetAll m (e :: t) = mapSetAll (mapSet m e.1 e.2) t from rfl,
      ih (fun a ha => h a (List.mem_cons_of_mem e ha)), mapGet_mapSet]
    simp [Ne.symm (h e (List.mem_cons_self e t))]

theorem mapSetAll_shadow {t : List (String × String)} {M : List (String × String)}
    {k : String} (v : String) (hk : k ∈ keysOf M) (hex : ∃ a ∈ t, a.1 = k) :
    mapSetAll (mapSet M k v) t = mapSetAll M t := by
  induction t generalizing M with
  | nil => simp at hex
  | cons a t ih =>
    by_cases ha : a.1 = k
    · show mapSetAll (mapSet (mapSet M k v) a.1 a.2) t = mapSetAll (mapSet M a.1 a.2) t
      rw [ha, mapSet_mapSet]
    · rcases hex with ⟨b, hb, hbk⟩
      have hbt : b ∈ t := by
        rcases List.mem_cons.mp hb with h | h
        · exact absurd (h ▸ hbk) ha
        · exact h
      show mapSetAll (mapSet (mapSet M k v) a.1 a.2) t = mapSetAll (mapSet M a.1 a.2) t
      rw [mapSet_comm v a.2 ha hk]
      exact ih (mem_keysOf_mapSet_of_mem a.1 a.2 hk) ⟨b, hbt, hbk⟩

theorem mapSetAll_idem (l : List (String × String)) (m : List (String × String)) :
    mapSetAll (mapSetAll m l) l = mapSetAll m l := by
  induction l generalizing m with
  | nil => rfl
  | cons e t ih =>
    show mapSetAll (mapSet (mapSetAll (mapSet m e.1 e.2) t) e.1 e.2) t
      = mapSetAll (mapSet m e.1 e.2) t
    set M := mapSetAll (mapSet m e.1 e.2) t with hM
    have hk : e.1 ∈ keysOf M :=
      mem_keysOf_mapSetAll_of_mem (mem_keysOf_mapSet_self m e.1 e.2)
    by_cases hex : ∃ a ∈ t, a.1 = e.1
    · rw [mapSetAll_shadow e.2 hk hex]
      exact ih (mapSet m e.1 e.2)
    · push_neg at hex
      have hget : mapGet M e.1 = some e.2 := by
        rw [hM, mapGet_mapSetAll_of_not_mem hex, mapGet_mapSet]
        simp
      rw [mapSet_of_mapGet_eq hget]
      exact ih (mapSet m e.1 e.2)

theorem mapSetAll_of_nodup (l : List (String × String)) (m : List (String × String))
    (h : (keysOf m ++ keysOf l).Nodup) : mapSetAll m l = m ++ l := by
  induction l generalizing m with
  | nil => simp [mapSetAll]
  | cons e t ih =>
    have hnotin : e.1 ∉ keysOf m := fun hmem =>
      (List.nodup_append.mp h).2.2 hmem (List.mem_cons_self e.1 (keysOf t))
    show mapSetAll (mapSet m e.1 e.2) t = m ++ e :: t
    rw [mapSet_append_of_not_mem e.2 hnotin, ih]
    · simp
    · have : keysOf (m ++ [(e.1, e.2)]) ++ keysOf t = keysOf m ++ keysOf (e :: t) := by
        simp [keysOf]
      rw [this]
      exact h

theorem mapFromPairs_self (l : List (String × String)) (h : (keysOf l).Nodup) :
    mapFromPairs l = l := by
  have := mapSetAll_of_nodup l [] (by simpa [keysOf])
  simpa [mapFromPairs] using this

/-! ### C7 — repair patch application is NOT idempotent in general

`normalisePath` strips only one leading "./": a patch path "././a" normalizes
to "./a" on the first application, and re-normalizes to "a" when the merged
set is fed back in, creating a second entry. -/

/-- C7 counterexample: applying the patch `[{path: "././a", content: "x"}]`
twice to the empty base yields a different set than applying it once. -/
theorem applyFixes_not_idem :
    applyFixes (applyFixes [] [⟨"././a", "x"⟩]) [⟨"././a", "x"⟩]
      ≠ applyFixes [] [⟨"././a", "x"⟩] := by
  decide

/-- C7 (amended): patch application is idempotent for every base set and patch
list whose paths are stable under a second normalization (`normalisePath` is
idempotent on them; this excludes only degenerate paths such as those starting
with "././" or containing backslash-encoded "./" prefixes): applying the same
patch twice to the same base yields exactly the set obtained by applying it
once. -/
theorem applyFixes_idem (base patch : List ProjectFile)
    (hb : ∀ f ∈ base, normalisePath (normalisePath f.path) = normalisePath f.path)
    (hp : ∀ q ∈ patch, normalisePath (normalisePath q.path) = normalisePath q.path) :
    applyFixes (applyFixes base patch) patch = applyFixes base patch := by
  have hstable : ∀ k ∈ keysOf (mapSetAll
      (mapFromPairs (base.map fun f => (normalisePath f.path, f.content)))
      (patch.map fun fix => (normalisePath fix.path, fix.content))),
      normalisePath k = k := by
    intro k hk
    rcases mem_keysOf_mapSetAll hk with h | h
    · rcases mem_keysOf_mapSetAll (m := []) h with h' | h'
      · simp [keysOf] at h'
      · simp only [keysOf, List.map_map, List.mem_map] at h'
        obtain ⟨f, hf, rfl⟩ := h'
        exact hb f hf
    · simp only [keysOf, List.map_map, List.mem_map] at h
      obtain ⟨q, hq, rfl⟩ := h
      exact hp q hq
  have hnodup : (keysOf (mapSetAll
      (mapFromPairs (base.map fun f => (normalisePath f.path, f.content)))
      (patch.map fun fix => (normalisePath fix.path, fix.content)))).Nodup :=
    nodup_keysOf_mapSetAll (nodup_keysOf_mapSetAll List.nodup_nil)
  have hre : ((mapSetAll
        (mapFromPairs (base.map fun f => (normalisePath f.path, f.content)))
        (patch.map fun fix => (normalisePath fix.path, fix.content))).map
          (fun e => (⟨e.1, e.2⟩ : ProjectFile))).map
      (fun f => (normalisePath f.path, f.content))
      = mapSetAll
          (mapFromPairs (base.map fun f => (normalisePath f.path, f.content)))
          (patch.map fun fix => (normalisePath fix.path, fix.content)) := by
    rw [List.map_map]
    have hcongr : ∀ e ∈ mapSetAll
        (mapFromPairs (base.map fun f => (normalisePath f.path, f.content)))
        (patch.map fun fix => (normalisePath fix.path, fix.content)),
        ((fun f : ProjectFile => (normalisePath f.path, f.content)) ∘
          fun e : String × String => (⟨e.1, e.2⟩ : ProjectFile)) e = id e := by
      intro e he
      have hs := hstable e.1 (List.mem_map_of_mem Prod.fst he)
      simp only [Function.comp_apply, id_eq]
      rw [hs]
    rw [List.map_congr_left hcongr, List.map_id]
  simp only [applyFixes]
  rw [hre, mapFromPairs_self _ hnodup, mapSetAll_idem]

/-- C7 amended witness: idempotence at a concrete normalization-stable input. -/
theorem applyFixes_idem_witness :
    applyFixes (applyFixes [⟨"index.html", "a"⟩] [⟨"./style.css", "b"⟩]) [⟨"./style.css", "b"⟩]
      = applyFixes [⟨"index.html", "a"⟩] [⟨"./style.css", "b"⟩] :=
  applyFixes_idem _ _ (by decide) (by decide)

/-! ### C8 — patch application touches only the patched paths -/

theorem mem_mapSet_of_ne {m : List (String × String)} {p : String × String} {k : String}
    (v : String) (hp : p ∈ m) (hne : p.1 ≠ k) : p ∈ mapSet m k v := by
  induction m with
  | nil => simp at hp
  | cons e m ih =>
    by_cases he : e.1 = k
    · simp only [mapSet, if_pos he]
      rcases List.mem_cons.mp hp with h | h
      · have : p.1 = k := by rw [h]; exact he
        exact absurd this hne
      · exact List.mem_cons_of_mem _ h
    · simp only [mapSet, if_neg he]
      rcases List.mem_cons.mp hp with h | h
      · exact List.mem_cons.mpr (Or.inl h)
      · exact List.mem_cons.mpr (Or.inr (ih h))

theorem mem_mapSetAll_frame {m l : List (String × String)} {p : String × String}
    (hp : p ∈ m) (hne : ∀ e ∈ l, e.1 ≠ p.1) : p ∈ mapSetAll m l := by
  induction l generalizing m with
  | nil => exact hp
  | cons e t ih =>
    show p ∈ mapSetAll (mapSet m e.1 e.2) t
    refine ih (mem_mapSet_of_ne e.2 hp ?_) (fun a ha => hne a (List.mem_cons_of_mem e ha))
    exact fun h => hne e (List.mem_cons_self e t) h.symm

theorem exists_val_of_mem_keysOf {m : List (String × String)} {k : String}
    (h : k ∈ keysOf m) : ∃ v, (k, v) ∈ m := by
  simp only [keysOf, List.mem_map] at h
  obtain ⟨e, he, hk⟩ := h
  refine ⟨e.2, ?_⟩
  rw [← hk]
  exact he

theorem mapGet_mapSetAll_last {m p₁ p₂ : List (String × String)} {e : String × String}
    (h : ∀ a ∈ p₂, a.1 ≠ e.1) :
    mapGet (mapSetAll m (p₁ ++ e :: p₂)) e.1 = some e.2 := by
  have hfold : mapSetAll m (p₁ ++ e :: p₂)
      = mapSetAll (mapSet (mapSetAll m p₁) e.1 e.2) p₂ := by
    simp [mapSetAll, List.foldl_append]
  rw [hfold, mapGet_mapSetAll_of_not_mem h, mapGet_mapSet, if_pos rfl]

theorem mem_of_mapGet_eq_some {m : List (String × String)} {k v : String}
    (h : mapGet m k = some v) : (k, v) ∈ m := by
  induction m with
  | nil => simp [mapGet] at h
  | cons e m ih =>
    by_cases he : e.1 = k
    · rw [mapGet, if_pos he] at h
      obtain rfl : e.2 = v := by simpa using h
      exact List.mem_cons.mpr (Or.inl (by rw [← he]))
    · rw [mapGet, if_neg he] at h
      exact List.mem_cons.mpr (Or.inr (ih h))

/-- C8: for every base ArtifactSet (paths already normalized and unique, as
the data model specifies) and every patch list, each patch entry is normalized
and overwritten-or-inserted — the merged set holds each patched path exactly
once, carrying the content of the last patch entry with that normalized path
(so an existing base file at that path is overwritten, a fresh path is
inserted) — and every base file whose path is not mentioned (after
normalization) in the patch appears unchanged — same path, same content — in
the merged set. -/
theorem applyFixes_frame (base patch : List ProjectFile)
    (hnorm : ∀ f ∈ base, normalisePath f.path = f.path)
    (hnodup : (base.map ProjectFile.path).Nodup) :
    (∀ f ∈ base, f.path ∉ patch.map (fun q => normalisePath q.path) →
      f ∈ applyFixes base patch)
    ∧ (∀ (l₁ l₂ : List ProjectFile) (q : ProjectFile),
        patch = l₁ ++ q :: l₂ →
        (∀ r ∈ l₂, normalisePath r.path ≠ normalisePath q.path) →
        (⟨normalisePath q.path, q.content⟩ : ProjectFile) ∈ applyFixes base patch)
    ∧ ((applyFixes base patch).map ProjectFile.path).Nodup := by
  have hpairs : base.map (fun f => (normalisePath f.path, f.content))
      = base.map (fun f => (f.path, f.content)) :=
    List.map_congr_left (fun f hf => by rw [hnorm f hf])
  have hkeys : keysOf (base.map fun f => (f.path, f.content)) = base.map ProjectFile.path := by
    simp only [keysOf, List.map_map]
    rfl
  have hfm : mapFromPairs (base.map fun f => (normalisePath f.path, f.content))
      = base.map (fun f => (f.path, f.content)) := by
    rw [hpairs]
    exact mapFromPairs_self _ (by rw [hkeys]; exact hnodup)
  refine ⟨?_, ?_, ?_⟩
  · intro f hf hout
    have hmem : (f.path, f.content) ∈ base.map (fun f => (f.path, f.content)) :=
      List.mem_map_of_mem _ hf
    have hmem2 : (f.path, f.content) ∈ mapSetAll
        (mapFromPairs (base.map fun f => (normalisePath f.path, f.content)))
        (patch.map fun fix => (normalisePath fix.path, fix.content)) := by
      rw [hfm]
      refine mem_mapSetAll_frame hmem ?_
      intro e hel
      simp only [List.mem_map] at hel
      obtain ⟨q, hq, rfl⟩ := hel
      intro hEq
      have hEq2 : normalisePath q.path = f.path := hEq
      refine hout ?_
      rw [← hEq2]
      exact List.mem_map_of_mem _ hq
    show (fun e : String × String => (⟨e.1, e.2⟩ : ProjectFile)) (f.path, f.content)
      ∈ applyFixes base patch
    simp only [applyFixes]
    exact List.mem_map_of_mem _ hmem2
  · intro l₁ l₂ q hsplit hlast
    have hdecomp : patch.map (fun fix => (normalisePath fix.path, fix.content))
        = (l₁.map fun fix => (normalisePath fix.path, fix.content))
          ++ (normalisePath q.path, q.content)
            :: (l₂.map fun fix => (normalisePath fix.path, fix.content)) := by
      rw [hsplit]
      simp
    have hget : mapGet (mapSetAll
        (mapFromPairs (base.map fun f => (normalisePath f.path, f.content)))
        (patch.map fun fix => (normalisePath fix.path, fix.content)))
        (normalisePath q.path) = some q.content := by
      rw [hdecomp]
      refine mapGet_mapSetAll_last ?_
      intro a ha
      obtain ⟨r, hr, rfl⟩ := List.mem_map.mp ha
      exact hlast r hr
    have hc := mem_of_mapGet_eq_some hget
    show (fun e : String × String => (⟨e.1, e.2⟩ : ProjectFile))
      (normalisePath q.path, q.content) ∈ applyFixes base patch
    simp only [applyFixes]
    exact List.mem_map_of_mem _ hc
  · have hkeys2 : (applyFixes base patch).map ProjectFile.path
        = keysOf (mapSetAll
            (mapFromPairs (base.map fun f => (normalisePath f.path, f.content)))
            (patch.map fun fix => (normalisePath fix.path, fix.content))) := by
      simp only [applyFixes, List.map_map]
      rfl
    rw [hkeys2]
    exact nodup_keysOf_mapSetAll (nodup_keysOf_mapSetAll List.nodup_nil)

/-- C8 witness: an overwrite at a concrete base and patch — the patched path
"./index.html" normalizes onto the existing base path and the merged set
carries the patch's content there. -/
theorem applyFixes_frame_witness :
    (⟨"index.html", "patched"⟩ : ProjectFile)
      ∈ applyFixes [⟨"index.html", "hello"⟩] [⟨"./index.html", "patched"⟩] :=
  (applyFixes_frame [⟨"index.html", "hello"⟩] [⟨"./index.html", "patched"⟩]
      (by decide) (by decide)).2.1 [] [] ⟨"./index.html", "patched"⟩ rfl
    (fun r hr => absurd hr (List.not_mem_nil r))

/-! ## JS string primitives (ASCII-faithful models)

All concrete inputs used in theorems are ASCII, where these models agree with
the JS semantics of toLowerCase, trim, includes, startsWith and endsWith. -/

/-- JS whitespace characters (the ASCII portion of \s). -/
def isJsWs (c : Char) : Bool :=
  c = ' ' || c = '\t' || c = '\n' || c = '\r' || c = '\x0b' || c = '\x0c'

/-- String.prototype.trim(). -/
def strTrim (s : String) : String :=
  ⟨((s.data.dropWhile isJsWs).reverse.dropWhile isJsWs).reverse⟩

/-- String.prototype.toLowerCase() (agrees with JS on ASCII). -/
def strToLower (s : String) : String := ⟨s.data.map Char.toLower⟩

/-- Does `sub` occur as a contiguous run inside `l`? -/
def listContainsSeq (sub : List Char) : List Char → Bool
  | [] => sub.isEmpty
  | c :: rest => sub.isPrefixOf (c :: rest) || listContainsSeq sub rest

/-- String.prototype.includes(sub). -/
def strContains (s sub : String) : Bool := listContainsSeq sub.data s.data

/-- String.prototype.startsWith(p). -/
def strStartsWith (s p : String) : Bool := p.data.isPrefixOf s.data

/-- String.prototype.endsWith(p). -/
def strEndsWith (s p : String) : Bool := p.data.isSuffixOf s.data

/-- JS regex word character: \w = [A-Za-z0-9_]. -/
def isWordChar (c : Char) : Bool :=
  ('a' ≤ c && c ≤ 'z') || ('A' ≤ c && c ≤ 'Z') || ('0' ≤ c && c ≤ '9') || c = '_'

/-- Case-insensitive "pat is at the start of l" (pat given lowercase),
modelling a regex i-flag match of a literal. -/
def ciIsPrefixOf (pat : List Char) (l : List Char) : Bool :=
  pat.isPrefixOf (l.map Char.toLower)

/-! ## Regex scanners of `prompts/verifier.ts`

Each scanner models one regex of the source. Scanners that resume after a
match use a fuel argument bounding the number of scan steps; the input length
plus one always suffices because every step consumes at least one character. -/

/-- Test of /<tag[\s>]/i (the `<html`/`<head`/`<body` structure checks):
the lowercased pattern followed by whitespace or '>' occurs somewhere. -/
def hasTagOpenAux (pat : List Char) : List Char → Bool
  | [] => false
  | c :: rest =>
    (pat.isPrefixOf (c :: rest)
      && match (c :: rest).drop pat.length with
        | d :: _ => isJsWs d || d = '>'
        | [] => false)
    || hasTagOpenAux pat rest

/-- /<TAG[\s>]/i.test(html). -/
def hasTagOpen (tag html : String) : Bool :=
  hasTagOpenAux (('<' :: tag.data).map Char.toLower) (html.data.map Char.toLower)

/-- The directive tokens of the Alpine regex in rule 11 of `validateFiles`:
/\b(x-show|x-if|x-for|x-model|x-text|x-html|x-bind|x-on|@click|@input|@change|@submit)\b/ -/
def alpineTokens : List (List Char) :=
  ["x-show", "x-if", "x-for", "x-model", "x-text", "x-html", "x-bind", "x-on",
    "@click", "@input", "@change", "@submit"].map String.data

/-- \b: a word boundary lies between two characters iff exactly one side is a
word character (out of range counts as non-word). -/
def boundaryBetween (left right : Option Char) : Bool :=
  (match left with | some c => isWordChar c | none => false)
    != (match right with | some c => isWordChar c | none => false)

/-- Scan for a \b-delimited occurrence of one of the Alpine directive tokens;
`prev` is the character before the current position. -/
def alpineScan (prev : Option Char) : List Char → Bool
  | [] => false
  | c :: rest =>
    (alpineTokens.any fun tok =>
      tok.isPrefixOf (c :: rest)
        && boundaryBetween prev (some c)
        && boundaryBetween ((c :: rest).drop (tok.length - 1)).head?
            ((c :: rest).drop tok.length).head?)
    || alpineScan (some c) rest

/-- The regex test of rule 11: /\b(x-show|...|@submit)\b/.test(html). -/
def alpineDirectivesTest (html : String) : Bool :=
  alpineScan none html.data

/-- Match ATTR=["']([^"'#?]+)["'] at the start of the input (`attr` given
lowercase, matched case-insensitively); returns the capture (original case)
and the remainder after the whole match. The capture run is deterministic:
its character class excludes both quote kinds, so greedy matching ends at the
first quote, '#' or '?', and only a quote there completes the match. -/
def matchAttrValue (attr : List Char) (l : List Char) : Option (List Char × List Char) :=
  if ciIsPrefixOf attr l then
    match l.drop attr.length with
    | '=' :: q :: rest =>
      if q = '"' || q = '\'' then
        let cap := rest.takeWhile fun c => !(c = '"' || c = '\'' || c = '#' || c = '?')
        match rest.drop cap.length with
        | c :: rest2 =>
          if decide (cap ≠ []) && (c = '"' || c = '\'') then some (cap, rest2) else none
        | [] => none
      else none
    | _ => none
  else none

/-- Search inside the [^>]+ region following "<TAG" for \bATTR=["']...["'].
Greedy [^>]+ with minimal backtracking selects the RIGHTMOST position where
the attribute part completes, every gap character being distinct from '>';
`prev` is the last consumed gap character (\b before ATTR, whose first
character is a word character, requires it to be non-word). -/
def findAttrLast (attr : List Char) (prev : Char) : List Char → Option (List Char × List Char)
  | [] => none
  | c :: rest =>
    match if c ≠ '>' then findAttrLast attr c rest else none with
    | some r => some r
    | none => if !isWordChar prev then matchAttrValue attr (c :: rest) else none

/-- One regex of the shape /<TAG\b[^>]+\bATTR=["']([^"'#?]+)["']/gi, run with
matchAll semantics: leftmost starts, non-overlapping, resuming after each
whole match; captures collected in order. -/
def extractTagAttrAux (tag attr : List Char) : Nat → List Char → List (List Char)
  | 0, _ => []
  | _, [] => []
  | fuel + 1, c :: rest =>
    if ciIsPrefixOf ('<' :: tag) (c :: rest) then
      match (c :: rest).drop (tag.length + 1) with
      | d :: rest2 =>
        if !isWordChar d && d ≠ '>' then
          match findAttrLast attr d rest2 with
          | some (cap, rest3) => cap :: extractTagAttrAux tag attr fuel rest3
          | none => extractTagAttrAux tag attr fuel rest
        else extractTagAttrAux tag attr fuel rest
      | [] => extractTagAttrAux tag attr fuel rest
    else extractTagAttrAux tag attr fuel rest

/-- `extractAttrValues(html, /<TAG\b[^>]+\bATTR=["']([^"'#?]+)["']/gi)`
(tag and attr given lowercase). -/
def extractTagAttrValues (tag attr : String) (html : String) : List String :=
  (extractTagAttrAux tag.data attr.data (html.data.length + 1) html.data).map
    fun l => ⟨l⟩

/-- `extractAttrValues(css, /url\(["']?([^"')]+)["']?\)/gi)`: url(, optional
quote, a one-plus run outside "') (the capture), optional quote, ')'. -/
def extractUrlRefsAux : Nat → List Char → List (List Char)
  | 0, _ => []
  | _, [] => []
  | fuel + 1, c :: rest =>
    if ciIsPrefixOf "url(".data (c :: rest) then
      let after := (c :: rest).drop 4
      let afterQ := match after with
        | q :: r => if q = '"' || q = '\'' then r else after
        | [] => after
      let cap := afterQ.takeWhile fun ch => !(ch = '"' || ch = '\'' || ch = ')')
      match afterQ.drop cap.length with
      | d :: rest2 =>
        if decide (cap ≠ []) then
          if d = ')' then cap :: extractUrlRefsAux fuel rest2
          else
            match rest2 with
            | ')' :: rest3 => cap :: extractUrlRefsAux fuel rest3
            | _ => extractUrlRefsAux fuel rest
        else extractUrlRefsAux fuel rest
      | [] => extractUrlRefsAux fuel rest
    else extractUrlRefsAux fuel rest

/-- url(...) reference extraction over a stylesheet. -/
def extractUrlRefs (css : String) : List String :=
  (extractUrlRefsAux (css.data.length + 1) css.data).map fun l => ⟨l⟩

/-! ## `hasSubstantiveContent` from `prompts/verifier.ts` -/

/-- Skip to just past the next close marker of a block comment. -/
def dropThroughClose : List Char → Option (List Char)
  | [] => none
  | '*' :: '/' :: rest => some rest
  | _ :: rest => dropThroughClose rest

/-- content.replace(block-comment regex, ""): each lazily-closed block comment
is removed; an unclosed opener does not match and stays. -/
def stripBlockComments : Nat → List Char → List Char
  | 0, l => l
  | _, [] => []
  | fuel + 1, c :: rest =>
    if c = '/' then
      match rest with
      | '*' :: rest2 =>
        match dropThroughClose rest2 with
        | some rest3 => stripBlockComments fuel rest3
        | none => c :: stripBlockComments fuel rest
      | _ => c :: stripBlockComments fuel rest
    else c :: stripBlockComments fuel rest

/-- content.replace(line-comment regex with the m flag, ""): from each "//"
to the end of its line (the dot class excludes both newline and carriage
return). -/
def stripLineComments : Nat → List Char → List Char
  | 0, l => l
  | _, [] => []
  | fuel + 1, c :: rest =>
    if c = '/' then
      match rest with
      | '/' :: rest2 =>
        stripLineComments fuel (rest2.dropWhile fun ch => !(ch = '\n' || ch = '\r'))
      | _ => c :: stripLineComments fuel rest
    else c :: stripLineComments fuel rest

/-- Match the use-strict removal regex at the current position: a quote,
"use strict", a quote (either kind), an optional ';', then greedy \s*. -/
def matchUseStrict (l : List Char) : Option (List Char) :=
  match l with
  | q :: rest =>
    if (q = '"' || q = '\'') && "use strict".data.isPrefixOf rest then
      match rest.drop 10 with
      | q2 :: rest2 =>
        if q2 = '"' || q2 = '\'' then
          let rest3 := match rest2 with
            | ';' :: r => r
            | _ => rest2
          some (rest3.dropWhile isJsWs)
        else none
      | [] => none
    else none
  | [] => none

/-- stripped.replace(use-strict regex with the m flag, ""): non-global, so
only the first match at a line start (start of string, or after a line
terminator) is removed. -/
def stripUseStrictAux (atStart : Bool) : List Char → List Char
  | [] => []
  | c :: rest =>
    if atStart then
      match matchUseStrict (c :: rest) with
      | some rest2 => rest2
      | none => c :: stripUseStrictAux (c = '\n' || c = '\r') rest
    else c :: stripUseStrictAux (c = '\n' || c = '\r') rest

/-- Consume one literal, or fail. -/
def expectLit (lit : List Char) (l : List Char) : Option (List Char) :=
  if lit.isPrefixOf l then some (l.drop lit.length) else none

/-- Match the empty-DOMContentLoaded-listener removal regex at the current
position and return the remainder after the whole match. -/
def matchDomReady (l : List Char) : Option (List Char) := do
  let l ← expectLit "document.addEventListener(".data l
  match l with
  | q :: l =>
    if q = '"' || q = '\'' then
      match l with
      | [] => none
      | _ => do
        let l ← expectLit "DOMContentLoaded".data l
        match l with
        | q2 :: l =>
          if q2 = '"' || q2 = '\'' then do
            let l ← expectLit [','] l
            let l := l.dropWhile isJsWs
            let l ← expectLit ['(', ')'] l
            let l := l.dropWhile isJsWs
            let l ← expectLit ['=', '>'] l
            let l := l.dropWhile isJsWs
            let l ← expectLit ['\x7b'] l
            let l := l.dropWhile isJsWs
            let l ← expectLit ['\x7d'] l
            let l := l.dropWhile isJsWs
            let l ← expectLit [')'] l
            match l with
            | ';' :: rest => some rest
            | _ => some l
          else none
        | [] => none
    else none
  | [] => none

/-- stripped.replace(DOMContentLoaded-empty-listener regex, "") — global. -/
def stripDomReady : Nat → List Char → List Char
  | 0, l => l
  | _, [] => []
  | fuel + 1, c :: rest =>
    match matchDomReady (c :: rest) with
    | some rest2 => stripDomReady fuel rest2
    | none => c :: stripDomReady fuel rest

/-- stripped.replace(at-import regex, "") — global: "@import", a one-plus run
of non-';' characters, then ';'. -/
def stripCssImports : Nat → List Char → List Char
  | 0, l => l
  | _, [] => []
  | fuel + 1, c :: rest =>
    if "@import".data.isPrefixOf (c :: rest) then
      let after := (c :: rest).drop 7
      let gap := after.takeWhile fun ch => ch ≠ ';'
      match after.drop gap.length with
      | ';' :: rest2 =>
        if decide (gap ≠ []) then stripCssImports fuel rest2
        else c :: stripCssImports fuel rest
      | _ => c :: stripCssImports fuel rest
    else c :: stripCssImports fuel rest

/-- stripped.replace(empty-root regex, "") — global: ":root", \s*, an opening
brace, \s*, a closing brace. -/
def stripEmptyRoot : Nat → List Char → List Char
  | 0, l => l
  | _, [] => []
  | fuel + 1, c :: rest =>
    match (do
        let l ← expectLit ":root".data (c :: rest)
        let l := l.dropWhile isJsWs
        let l ← expectLit ['\x7b'] l
        let l := l.dropWhile isJsWs
        expectLit ['\x7d'] l) with
    | some rest2 => stripEmptyRoot fuel rest2
    | none => c :: stripEmptyRoot fuel rest

/-- The "css" | "js" union type of the `ext` parameter. -/
inductive FileExt where
  | css
  | js
deriving DecidableEq

/-- `hasSubstantiveContent(content, ext)`: strip block and line comments and
trim; for js additionally remove a leading use-strict pragma and empty
DOMContentLoaded listeners; for css remove at-import statements and an empty
:root block; require more than 10 characters to remain. -/
def hasSubstantiveContent (content : String) (ext : FileExt) : Bool :=
  let l0 := stripBlockComments (content.data.length + 1) content.data
  let l1 := stripLineComments (l0.length + 1) l0
  let base := (strTrim ⟨l1⟩).data
  let stripped :=
    match ext with
    | .js =>
      let a := (strTrim ⟨stripUseStrictAux true base⟩).data
      (strTrim ⟨stripDomReady (a.length + 1) a⟩).data
    | .css =>
      let a := (strTrim ⟨stripCssImports (base.length + 1) base⟩).data
      (strTrim ⟨stripEmptyRoot (a.length + 1) a⟩).data
  stripped.length > 10

/-! ## The Validator: `validateFiles` from `prompts/verifier.ts` -/

/-- `ValidationReport` from `pipeline/types.ts`. -/
structure ValidationReport where
  issues : List String
  passed : Bool
deriving DecidableEq

/-- The CDN_PREFIXES constant. -/
def CDN_PREFIXES : List String :=
  ["https://", "http://", "//cdn.", "//unpkg.", "//fonts.", "//cdnjs.", "//jsdelivr."]

/-- `isCdnOrAbsolute(src)`. -/
def isCdnOrAbsolute (src : String) : Bool :=
  CDN_PREFIXES.any (fun p => strStartsWith src p)
    || strStartsWith src "data:" || strStartsWith src "blob:"

/-- JS `Set.has`. -/
def listHas (l : List String) (x : String) : Bool := decide (x ∈ l)

/-- The key list of `new Set(xs)` in iteration order: every element once, at
the position of its first occurrence. -/
def insertionOrderDedup (l : List String) : List String := l.reverse.dedup.reverse

/-- `new Set(files.map(f => normalisePath(f.path)))`. -/
def pathSetOf (files : List ProjectFile) : List String :=
  insertionOrderDedup (files.map fun f => normalisePath f.path)

/-- `new Map(files.map(f => [normalisePath(f.path), f.content]))`. -/
def fileMapOf (files : List ProjectFile) : List (String × String) :=
  mapFromPairs (files.map fun f => (normalisePath f.path, f.content))

/-- The rule-11 issue message for one markup artifact (the source builds it
from two concatenated literals). -/
def alpineMsg (filePath : String) : String :=
  filePath ++ ": Alpine.js directives used but no x-data attribute found — elements with x-show/@click etc. need an x-data ancestor"

/-- Rule 1: index.html exists. -/
def entryIssues (files : List ProjectFile) : List String :=
  if !listHas (pathSetOf files) "index.html" then
    ["index.html is missing — project has no entry point"]
  else []

/-- Rule 2: README.md exists (matched case-insensitively over the path set)
and its trimmed content has at least 50 characters. -/
def readmeIssues (files : List ProjectFile) : List String :=
  match (pathSetOf files).find? (fun p => strToLower p == "readme.md") with
  | none => ["README.md is missing"]
  | some readmeKey =>
    if (strTrim ((mapGet (fileMapOf files) readmeKey).getD "")).data.length < 50 then
      ["README.md exists but has very little content"]
    else []

/-- Rule 3: no completely empty files. -/
def emptyFileIssues (files : List ProjectFile) : List String :=
  files.flatMap fun f =>
    if (strTrim f.content).data.length = 0 then ["File is empty: " ++ f.path] else []

/-- Rules 6 and 9: one link href — existence, and substantive content for
stylesheets. -/
def linkIssuesFor (pathSet : List String) (fileMap : List (String × String))
    (filePath href : String) : List String :=
  if isCdnOrAbsolute href || strStartsWith href "#" || strStartsWith href "mailto:" then []
  else if !listHas pathSet (normalisePath href) then
    [filePath ++ ": <link> references missing file: " ++ href]
  else if strEndsWith (normalisePath href) ".css" then
    if !hasSubstantiveContent ((mapGet fileMap (normalisePath href)).getD "") .css then
      [filePath ++ ": referenced CSS file is effectively empty: " ++ href]
    else []
  else []

/-- Rules 7 and 10: one script src — existence and substantive content. -/
def scriptIssuesFor (pathSet : List String) (fileMap : List (String × String))
    (filePath src : String) : List String :=
  if isCdnOrAbsolute src then []
  else if !listHas pathSet (normalisePath src) then
    [filePath ++ ": <script> references missing file: " ++ src]
  else if !hasSubstantiveContent ((mapGet fileMap (normalisePath src)).getD "") .js then
    [filePath ++ ": referenced JS file is effectively empty: " ++ src]
  else []

/-- Rule 8: one img src — existence. -/
def imgIssuesFor (pathSet : List String) (filePath src : String) : List String :=
  if isCdnOrAbsolute src then []
  else if !listHas pathSet (normalisePath src) then
    [filePath ++ ": <img> references missing local file: " ++ src
      ++ " — use a CSS gradient or inline SVG instead"]
  else []

/-- Rules 4 to 11 for one artifact, empty unless its path ends in ".html". -/
def htmlIssuesFor (pathSet : List String) (fileMap : List (String × String))
    (f : ProjectFile) : List String :=
  if !strEndsWith f.path ".html" then []
  else
    (if !strContains f.content "<!DOCTYPE html" && !strContains f.content "<!doctype html" then
      [normalisePath f.path ++ ": missing <!DOCTYPE html>"] else [])
    ++ (if !hasTagOpen "html" f.content then
      [normalisePath f.path ++ ": missing <html> tag"] else [])
    ++ (if !hasTagOpen "head" f.content then
      [normalisePath f.path ++ ": missing <head> tag"] else [])
    ++ (if !hasTagOpen "body" f.content then
      [normalisePath f.path ++ ": missing <body> tag"] else [])
    ++ (if !strContains f.content "name=\"viewport\""
          && !strContains f.content "name='viewport'" then
      [normalisePath f.path ++ ": missing viewport meta tag (breaks mobile layout)"] else [])
    ++ ((extractTagAttrValues "link" "href" f.content).flatMap
      (linkIssuesFor pathSet fileMap (normalisePath f.path)))
    ++ ((extractTagAttrValues "script" "src" f.content).flatMap
      (scriptIssuesFor pathSet fileMap (normalisePath f.path)))
    ++ ((extractTagAttrValues "img" "src" f.content).flatMap
      (imgIssuesFor pathSet (normalisePath f.path)))
    ++ (if alpineDirectivesTest f.content && !strContains f.content "x-data" then
      [alpineMsg (normalisePath f.path)] else [])

/-- Rule 12 for one artifact, empty unless its path ends in ".css": url()
references to local assets must exist. -/
def cssIssuesFor (pathSet : List String) (f : ProjectFile) : List String :=
  if !strEndsWith f.path ".css" then []
  else
    (extractUrlRefs f.content).flatMap fun ref =>
      if isCdnOrAbsolute ref || strStartsWith ref "data:" || strStartsWith ref "#" then []
      else if !listHas pathSet (normalisePath ref) then
        [normalisePath f.path ++ ": CSS url() references missing local file: " ++ ref]
      else []

/-- The issue list of `validateFiles`, in the source's push order. -/
def validationIssues (files : List ProjectFile) : List String :=
  entryIssues files
    ++ readmeIssues files
    ++ emptyFileIssues files
    ++ files.flatMap (htmlIssuesFor (pathSetOf files) (fileMapOf files))
    ++ files.flatMap (cssIssuesFor (pathSetOf files))

/-- `validateFiles(files)`: the collected issues, and
`passed: issues.length === 0`. -/
def validateFiles (files : List ProjectFile) : ValidationReport :=
  { issues := validationIssues files
    passed := (validationIssues files).length == 0 }

/-- C1: for every ArtifactSet in which no file's normalized path equals
"index.html", the report has passed = false and an entry-missing issue; and
for every ArtifactSet, passed = true exactly when the issue list is empty. -/
theorem validateFiles_entry_and_passed :
    (∀ files : List ProjectFile,
      ((validateFiles files).passed = true ↔ (validateFiles files).issues = []))
    ∧ ∀ files : List ProjectFile,
      (∀ f ∈ files, normalisePath f.path ≠ "index.html") →
        (validateFiles files).passed = false
        ∧ "index.html is missing — project has no entry point"
            ∈ (validateFiles files).issues := by
  constructor
  · intro files
    show ((validationIssues files).length == 0) = true ↔ validationIssues files = []
    simp [List.length_eq_zero]
  · intro files hno
    have hnotmem : "index.html" ∉ pathSetOf files := by
      simp only [pathSetOf, insertionOrderDedup, List.mem_reverse, List.mem_dedup,
        List.mem_map]
      rintro ⟨f, hf, heq⟩
      exact hno f hf heq
    have hhas : listHas (pathSetOf files) "index.html" = false := decide_eq_false hnotmem
    have hentry : entryIssues files
        = ["index.html is missing — project has no entry point"] := by
      simp [entryIssues, hhas]
    have hmem : "index.html is missing — project has no entry point"
        ∈ validationIssues files := by
      rw [validationIssues, hentry]
      simp
    have hne : (validationIssues files).length ≠ 0 := by
      intro hzero
      rw [List.length_eq_zero] at hzero
      rw [hzero] at hmem
      exact List.not_mem_nil _ hmem
    refine ⟨?_, hmem⟩
    show ((validationIssues files).length == 0) = false
    exact beq_eq_false_iff_ne.mpr hne

/-- C1 witness: the empty ArtifactSet has no entry file, so validation fails
with the entry-missing message. -/
theorem validateFiles_entry_witness :
    (validateFiles []).passed = false
      ∧ "index.html is missing — project has no entry point"
          ∈ (validateFiles []).issues :=
  validateFiles_entry_and_passed.2 [] (fun f hf => absurd hf (List.not_mem_nil f))

/-- C10: the entry-file check is case-sensitive (a set containing only
"Index.html" is reported as missing the entry point), while the overview
check matches "readme.md" case-insensitively ("ReadMe.MD" satisfies it and
is then subject to the 50-character content check). -/
theorem validator_case_sensitivity :
    ("index.html is missing — project has no entry point"
        ∈ (validateFiles [⟨"Index.html", "x"⟩]).issues)
    ∧ ("README.md is missing" ∉ (validateFiles [⟨"ReadMe.MD", "Short."⟩]).issues)
    ∧ ("README.md exists but has very little content"
        ∈ (validateFiles [⟨"ReadMe.MD", "Short."⟩]).issues)
    ∧ ("README.md is missing"
        ∉ (validateFiles [⟨"ReadMe.MD",
            "A readme that is clearly long enough to pass the fifty character content check."⟩]).issues)
    ∧ ("README.md exists but has very little content"
        ∉ (validateFiles [⟨"ReadMe.MD",
            "A readme that is clearly long enough to pass the fifty character content check."⟩]).issues) := by
  decide

/-! ### C9 — the interactive-directive check is regex-word-boundary based
and document-wide -/

theorem take_length_append (a b : List Char) : (a ++ b).take a.length = a := by
  induction a with
  | nil => simp
  | cons c a ih => simp [ih]

/-- Two strings differ when the second does not start with the first's
left-append part. -/
theorem append_ne_of_take_ne (p s m : String)
    (h : m.data.take p.data.length ≠ p.data) : p ++ s ≠ m := by
  intro he
  apply h
  rw [← he]
  show (p.data ++ s.data).take p.data.length = p.data
  exact take_length_append _ _

theorem not_mem_ite_singleton {c : Prop} [Decidable c] {m s : String} (h : m ≠ s) :
    m ∉ (if c then [s] else []) := by
  split
  · simp [h]
  · simp

theorem alpine_not_in_link (ps : List String) (fm : List (String × String)) (href : String) :
    alpineMsg "index.html" ∉ linkIssuesFor ps fm "index.html" href := by
  intro hm
  unfold linkIssuesFor at hm
  split at hm
  · exact List.not_mem_nil _ hm
  · split at hm
    · rw [List.mem_singleton] at hm
      exact append_ne_of_take_ne _ href _ (by decide) hm.symm
    · split at hm
      · split at hm
        · rw [List.mem_singleton] at hm
          exact append_ne_of_take_ne _ href _ (by decide) hm.symm
        · exact List.not_mem_nil _ hm
      · exact List.not_mem_nil _ hm

theorem alpine_not_in_script (ps : List String) (fm : List (String × String)) (src : String) :
    alpineMsg "index.html" ∉ scriptIssuesFor ps fm "index.html" src := by
  intro hm
  unfold scriptIssuesFor at hm
  split at hm
  · exact List.not_mem_nil _ hm
  · split at hm
    · rw [List.mem_singleton] at hm
      exact append_ne_of_take_ne _ src _ (by decide) hm.symm
    · split at hm
      · rw [List.mem_singleton] at hm
        exact append_ne_of_take_ne _ src _ (by decide) hm.symm
      · exact List.not_mem_nil _ hm

theorem alpine_not_in_img (ps : List String) (src : String) :
    alpineMsg "index.html" ∉ imgIssuesFor ps "index.html" src := by
  intro hm
  unfold imgIssuesFor at hm
  split at hm
  · exact List.not_mem_nil _ hm
  · split at hm
    · rw [List.mem_singleton] at hm
      rw [show "index.html" ++ ": <img> references missing local file: " ++ src
          ++ " — use a CSS gradient or inline SVG instead"
          = ("index.html" ++ ": <img> references missing local file: ")
            ++ (src ++ " — use a CSS gradient or inline SVG instead") from by
        simp [String.append_assoc]] at hm
      exact append_ne_of_take_ne _ _ _ (by decide) hm.symm
    · exact List.not_mem_nil _ hm

theorem not_mem_flatMap_of_forall {α : Type} {l : List α} {f : α → List String} {m : String}
    (h : ∀ a, m ∉ f a) : m ∉ l.flatMap f := by
  intro hm
  obtain ⟨a, -, hma⟩ := List.mem_flatMap.mp hm
  exact h a hma

/-- C9 counterexample: the literal token "@click" appears in the document
(preceded by a space) and "x-data" appears nowhere, yet no directive issue is
raised — the regex \b before '@' only matches when the character before it is
a word character. -/
theorem alpine_check_counterexample :
    strContains "<button @click=\"go()\">Go</button>" "@click" = true
    ∧ strContains "<button @click=\"go()\">Go</button>" "x-data" = false
    ∧ alpineMsg "index.html"
        ∉ (validateFiles [⟨"index.html", "<button @click=\"go()\">Go</button>"⟩]).issues := by
  refine ⟨by decide, by decide, ?_⟩
  decide

/-- C9 (amended): for a markup document (exhibited as the sole artifact at
the entry path), the directive issue is raised exactly when some directive
token of the fixed set occurs delimited by regex word boundaries and the
scope marker "x-data" appears nowhere in the same document; in particular an
x-data occurrence anywhere in the file suppresses the issue, and the check is
document-wide, not scope-aware. -/
theorem alpine_check_word_boundary (html : String) :
    alpineMsg "index.html" ∈ (validateFiles [⟨"index.html", html⟩]).issues
      ↔ (alpineDirectivesTest html = true ∧ strContains html "x-data" = false) := by
  have h_not_empty : alpineMsg "index.html" ∉ emptyFileIssues [⟨"index.html", html⟩] := by
    intro hm
    obtain ⟨g, hg, hmm⟩ := List.mem_flatMap.mp hm
    rw [List.mem_singleton] at hg
    subst hg
    by_cases hc : (strTrim html).data.length = 0
    · rw [if_pos hc, List.mem_singleton] at hmm
      have hne : alpineMsg "index.html" ≠ "File is empty: " ++ "index.html" := by decide
      exact hne hmm
    · rw [if_neg hc] at hmm
      exact List.not_mem_nil _ hmm
  have h_html : alpineMsg "index.html" ∈ htmlIssuesFor (pathSetOf [⟨"index.html", html⟩])
        (fileMapOf [⟨"index.html", html⟩]) ⟨"index.html", html⟩
      ↔ (alpineDirectivesTest html = true ∧ strContains html "x-data" = false) := by
    unfold htmlIssuesFor
    simp only [show (ProjectFile.mk "index.html" html).path = "index.html" from rfl,
      show (ProjectFile.mk "index.html" html).content = html from rfl]
    rw [if_neg (by decide : ¬ ((!strEndsWith "index.html" ".html") = true))]
    rw [show normalisePath "index.html" = "index.html" from rfl]
    simp only [List.mem_append]
    constructor
    · rintro ((((((((h | h) | h) | h) | h) | h) | h) | h) | h)
      · exact absurd h (not_mem_ite_singleton (by decide))
      · exact absurd h (not_mem_ite_singleton (by decide))
      · exact absurd h (not_mem_ite_singleton (by decide))
      · exact absurd h (not_mem_ite_singleton (by decide))
      · exact absurd h (not_mem_ite_singleton (by decide))
      · exact absurd h (not_mem_flatMap_of_forall (alpine_not_in_link _ _))
      · exact absurd h (not_mem_flatMap_of_forall (alpine_not_in_script _ _))
      · exact absurd h (not_mem_flatMap_of_forall (alpine_not_in_img _))
      · by_cases hc : (alpineDirectivesTest html && !strContains html "x-data") = true
        · rcases Bool.and_eq_true .. |>.mp hc with ⟨h1, h2⟩
          exact ⟨h1, Bool.not_eq_true' .. |>.mp h2⟩
        · rw [if_neg hc] at h
          exact absurd h (List.not_mem_nil _)
    · rintro ⟨h1, h2⟩
      refine Or.inr ?_
      have hc : (alpineDirectivesTest html && !strContains html "x-data") = true := by
        rw [Bool.and_eq_true]
        exact ⟨h1, Bool.not_eq_true' .. |>.mpr h2⟩
      rw [if_pos hc]
      exact List.mem_singleton.mpr rfl
  rw [show (validateFiles [⟨"index.html", html⟩]).issues
      = validationIssues [⟨"index.html", html⟩] from rfl]
  unfold validationIssues
  rw [show entryIssues [⟨"index.html", html⟩] = [] from rfl,
    show readmeIssues [⟨"index.html", html⟩] = ["README.md is missing"] from rfl,
    show ([⟨"index.html", html⟩] : List ProjectFile).flatMap
        (cssIssuesFor (pathSetOf [⟨"index.html", html⟩])) = [] from rfl]
  simp only [List.nil_append, List.append_nil, List.mem_append, List.mem_singleton]
  constructor
  · rintro ((h | h) | h)
    · exact absurd h (by decide)
    · exact absurd h h_not_empty
    · obtain ⟨g, hg, hmg⟩ := List.mem_flatMap.mp h
      rw [List.mem_singleton] at hg
      subst hg
      exact h_html.mp hmg
  · intro hcond
    refine Or.inr ?_
    rw [List.mem_flatMap]
    exact ⟨⟨"index.html", html⟩, List.mem_singleton.mpr rfl, h_html.mpr hcond⟩

/-- C9 amended witness: a word-boundary directive occurrence without x-data
raises the issue. -/
theorem alpine_check_word_boundary_witness :
    alpineMsg "index.html"
      ∈ (validateFiles [⟨"index.html", "<div x-show=\"open\">hi</div>"⟩]).issues :=
  (alpine_check_word_boundary "<div x-show=\"open\">hi</div>").mpr ⟨by decide, by decide⟩

/-! ## The Repair Loop: `runVerifier` from `prompts/verifier.ts`

The model-call and response-parse effects are passed in explicitly:
`llmOutcome` is the outcome of `llm.generateForStep` (an exception or a
result), and `parse` stands for `parseVerifierResponse` including its
fallible `JSON.parse` (a parse exception is `none`). The embedding is a total
function, so no error propagates out of the repair loop. -/

/-- `StepUsage` from `pipeline/types.ts` (token counts). -/
structure StepUsage where
  promptTokens : Nat
  completionTokens : Nat
  totalTokens : Nat
deriving DecidableEq

/-- The fields of an `LLMResponse` consumed by `runVerifier`. -/
structure LLMVerifierResult where
  text : String
  usage : Option StepUsage

/-- The status flag of `VerifierOutput` ("ok" | "fixed"). -/
inductive VerifierStatus where
  | ok
  | fixed
deriving DecidableEq

/-- `VerifierOutput` from `pipeline/types.ts` (after
`parseVerifierResponse` normalization). -/
structure VerifierOutput where
  status : VerifierStatus
  issuesFound : List String
  fixedFiles : List ProjectFile

/-- `VerifyResult` from `pipeline/types.ts`. -/
structure VerifyResult where
  files : List ProjectFile
  issuesFound : List String
  llmVerifierRan : Bool
  usage : Option StepUsage

/-- `runVerifier(jobPrompt, files)`: phase-1 programmatic validation, early
return when no issues; otherwise one LLM repair call whose parse failure or
invocation failure falls back to the original files and issue list. -/
def runVerifier (parse : String → Option VerifierOutput)
    (llmOutcome : Except Unit LLMVerifierResult)
    (files : List ProjectFile) : VerifyResult :=
  if 0 < (validateFiles files).issues.length then
    match llmOutcome with
    | .error _ => ⟨files, (validateFiles files).issues, true, none⟩
    | .ok result =>
      match parse result.text with
      | none => ⟨files, (validateFiles files).issues, true, result.usage⟩
      | some out =>
        if out.status = .fixed ∧ 0 < out.fixedFiles.length then
          ⟨applyFixes files out.fixedFiles,
            (validateFiles files).issues ++ out.issuesFound, true, result.usage⟩
        else ⟨files, (validateFiles files).issues, true, result.usage⟩
  else ⟨files, [], false, none⟩

/-- C2: when validation found issues and either the provider invocation
throws or the response fails to parse, the repair attempt is discarded: the
result carries exactly the pre-repair file list and the original programmatic
issue list. -/
theorem runVerifier_repair_fallback
    (parse : String → Option VerifierOutput)
    (outcome : Except Unit LLMVerifierResult)
    (files : List ProjectFile)
    (hissues : (validateFiles files).issues ≠ [])
    (hfail : outcome = .error ()
      ∨ ∃ res, outcome = .ok res ∧ parse res.text = none) :
    (runVerifier parse outcome files).files = files
    ∧ (runVerifier parse outcome files).issuesFound = (validateFiles files).issues := by
  have hpos : 0 < (validateFiles files).issues.length := by
    cases h : (validateFiles files).issues with
    | nil => exact absurd h hissues
    | cons a l => simp [h]
  rcases hfail with herr | ⟨res, hok, hparse⟩
  · subst herr
    rw [runVerifier, if_pos hpos]
    exact ⟨rfl, rfl⟩
  · subst hok
    rw [runVerifier, if_pos hpos]
    rw [hparse]
    exact ⟨rfl, rfl⟩

/-- C2 witness: the empty set fails validation; a throwing provider call
leaves it untouched with the original issues. -/
theorem runVerifier_repair_fallback_witness :
    (runVerifier (fun _ => none) (Except.error ()) []).files = []
    ∧ (runVerifier (fun _ => none) (Except.error ()) []).issuesFound
        = (validateFiles []).issues :=
  runVerifier_repair_fallback (fun _ => none) (Except.error ()) [] (by decide)
    (Or.inl rfl)

/-! ## Invocation-layer retry delay: `getRetryDelay` from `llm/client.ts`

The `Math.random()` draw is an explicit rational parameter `r` in [0,1);
real-number arithmetic is modelled exactly over `ℚ` (IEEE rounding noise is
far below the 12.5-vs-25 percent discrepancy at issue). -/

/-- The fields of `getRetryConfig()` used by `getRetryDelay`. -/
structure RetryConfig where
  baseDelayMs : ℚ
  maxDelayMs : ℚ

/-- JS `Math.round(x)` = floor(x + 1/2). -/
def jsRound (q : ℚ) : ℤ := ⌊q + 1/2⌋

/-- `getRetryDelay(attempt, retryConfig)`:
`delay = Math.min(base * 2^attempt, maxDelay)`, then
`jitter = delay * 0.25 * (Math.random() - 0.5)` and the rounded sum is
returned. -/
def getRetryDelay (attempt : Nat) (cfg : RetryConfig) (r : ℚ) : ℤ :=
  jsRound (min (cfg.baseDelayMs * 2 ^ attempt) cfg.maxDelayMs
    + min (cfg.baseDelayMs * 2 ^ attempt) cfg.maxDelayMs * (1/4) * (r - 1/2))

/-- C4: at the documented defaults (base 1000ms, max 10000ms) and attempt 0,
the delay lies within 875..1125 for every possible random draw: the jitter
term spans at most ±12.5% of the backoff value, never the ±25% stated by the
spec and by the code's own comment (which would require delays up to 1250ms
to be attainable). -/
theorem getRetryDelay_jitter_bound (r : ℚ) (h0 : 0 ≤ r) (h1 : r ≤ 1) :
    875 ≤ getRetryDelay 0 ⟨1000, 10000⟩ r ∧ getRetryDelay 0 ⟨1000, 10000⟩ r ≤ 1125 := by
  have hmin : min ((1000 : ℚ) * 2 ^ 0) 10000 = 1000 := by norm_num
  unfold getRetryDelay jsRound
  rw [hmin]
  constructor
  · rw [Int.le_floor]
    push_cast
    linarith
  · have hle : (1000 : ℚ) + 1000 * (1/4) * (r - 1/2) + 1/2 ≤ 2251/2 := by linarith
    calc ⌊(1000 : ℚ) + 1000 * (1/4) * (r - 1/2) + 1/2⌋
        ≤ ⌊(2251/2 : ℚ)⌋ := Int.floor_le_floor hle
      _ = 1125 := by
          rw [Int.floor_eq_iff]
          norm_num

/-- C4 witness: the jitter bound at the midpoint draw. -/
theorem getRetryDelay_jitter_bound_witness :
    875 ≤ getRetryDelay 0 ⟨1000, 10000⟩ (1/2)
      ∧ getRetryDelay 0 ⟨1000, 10000⟩ (1/2) ≤ 1125 :=
  getRetryDelay_jitter_bound (1/2) (by norm_num) (by norm_num)

/-! ## Response Normalizer: `normalizeGenerateResult` from
`llm/providers/normalize.ts`

JS runtime values of type `unknown` are modelled by the inductive `Jx`;
`undefined` is `none` at `Option` positions and JS `null` is the value
`Jx.null` (the two behave differently under `??`, which is modelled by
`jsCoalesce`). -/

/-- A JS runtime value (`unknown`). -/
inductive Jx where
  | obj (fields : List (String × Jx))
  | arr (elems : List Jx)
  | str (s : String)
  | num (n : Int)
  | bool (b : Bool)
  | null

/-- JS `a ?? b`: `b` when `a` is null or undefined, else `a`. -/
def jsCoalesce (a b : Option Jx) : Option Jx :=
  match a with
  | none => b
  | some Jx.null => b
  | some v => some v

/-- A step's tool call (`toolName`, `toolCallId`, SDK-4 `args` or SDK-5
`input`). -/
structure StepToolCall where
  toolName : String
  toolCallId : String
  args : Option Jx
  input : Option Jx

/-- A step's tool result (`result` or `output`). -/
structure StepToolRes where
  toolCallId : String
  result : Option Jx
  output : Option Jx

/-- One step of the AI SDK generateText result. -/
structure GenerateTextStep where
  text : Option String
  toolCalls : Option (List StepToolCall)
  toolResults : Option (List StepToolRes)

/-- The usage record with its alternate field names. -/
structure RawUsage where
  promptTokens : Option Nat
  completionTokens : Option Nat
  inputTokens : Option Nat
  outputTokens : Option Nat
  totalTokens : Option Nat

/-- The full AI SDK generateText result (the fields `normalizeGenerateResult`
reads). -/
structure GenerateTextResult where
  text : String
  finishReason : Option String
  steps : Option (List GenerateTextStep)
  usage : Option RawUsage

/-- `ProviderToolCall` of `llm/providers/types.ts`. -/
structure ProviderToolCall where
  name : String
  args : Jx
  result : Option Jx

/-- `ProviderUsage` of `llm/providers/types.ts`. -/
structure ProviderUsage where
  promptTokens : Nat
  completionTokens : Nat
  totalTokens : Nat

/-- `ProviderGenerateResult` of `llm/providers/types.ts` (the fields set by
the normalizer). -/
structure ProviderGenerateResult where
  text : String
  toolCalls : Option (List ProviderToolCall)
  usage : Option ProviderUsage

/-- The args coercion: `typeof rawArgs === "object" && rawArgs !== null &&
!Array.isArray(rawArgs) ? rawArgs : \x7b\x7d`. -/
def coerceArgs (rawArgs : Option Jx) : Jx :=
  match rawArgs with
  | some (Jx.obj fields) => Jx.obj fields
  | _ => Jx.obj []

/-- `a ?? b` on number fields (a number is never nullish once present). -/
def natCoalesce (a b : Option Nat) : Option Nat :=
  match a with
  | some n => some n
  | none => b

/-- The tool-call extraction loop over `result.steps`: for each step's tool
calls, pair with the matching entry of the same step's toolResults
(`result ?? output`) and coerce args (`args ?? input`). -/
def extractToolCalls (result : GenerateTextResult) : List ProviderToolCall :=
  match result.steps with
  | none => []
  | some steps =>
    steps.flatMap fun step =>
      match step.toolCalls with
      | none => []
      | some stepToolCalls =>
        stepToolCalls.map fun tc =>
          let resultEntry := (step.toolResults.getD []).find? fun tr =>
            tr.toolCallId == tc.toolCallId
          { name := tc.toolName
            args := coerceArgs (jsCoalesce tc.args tc.input)
            result := jsCoalesce (resultEntry.bind StepToolRes.result)
              (resultEntry.bind StepToolRes.output) }

/-- The backwards scan of the text-fallback loop: the text of the last step
whose text is truthy (present and non-empty). -/
def lastStepText (steps : List GenerateTextStep) : Option String :=
  (steps.reverse.find? fun s =>
    match s.text with
    | some t => decide (t ≠ "")
    | none => false).bind GenerateTextStep.text

/-- `normalizeGenerateResult(result)` (the steps-based normalizer of
`normalize.ts`): extract tool calls from steps; when the top-level text is
blank AND tool calls were extracted AND steps exist, fall back to the last
step text; derive usage with alternate field names. -/
def normalizeGenerateResult (result : GenerateTextResult) : ProviderGenerateResult :=
  let toolCalls := extractToolCalls result
  let text :=
    if result.text = "" ∧ 0 < toolCalls.length ∧ 0 < (result.steps.getD []).length then
      match lastStepText (result.steps.getD []) with
      | some t => t
      | none => result.text
    else result.text
  let usage : Option ProviderUsage :=
    match result.usage with
    | none => none
    | some raw =>
      some
        { promptTokens := (natCoalesce raw.promptTokens raw.inputTokens).getD 0
          completionTokens := (natCoalesce raw.completionTokens raw.outputTokens).getD 0
          totalTokens := raw.totalTokens.getD
            ((natCoalesce raw.promptTokens raw.inputTokens).getD 0
              + (natCoalesce raw.completionTokens raw.outputTokens).getD 0) }
  { text := text
    toolCalls := if 0 < toolCalls.length then some toolCalls else none
    usage := usage }

/-- C5 counterexample: a response with NO extracted tool invocations, a blank
top-level text and a step carrying the trailing text "hello" normalizes to a
blank canonical text — the fallback does not fire without tool calls. -/
theorem normalize_no_toolcall_counterexample :
    (normalizeGenerateResult ⟨"", none, some [⟨some "hello", none, none⟩], none⟩).text = ""
    ∧ (normalizeGenerateResult
        ⟨"", none, some [⟨some "hello", none, none⟩], none⟩).toolCalls = none :=
  ⟨rfl, rfl⟩

/-- C5 (amended): when tool invocations WERE extracted, the top-level text is
blank, and some step carries trailing (non-empty) text, the last such step's
text becomes the canonical text — callers never see an empty canonical text
in that situation. -/
theorem normalize_step_text_fallback (result : GenerateTextResult) (t : String)
    (htext : result.text = "")
    (hcalls : extractToolCalls result ≠ [])
    (hstep : lastStepText (result.steps.getD []) = some t) :
    (normalizeGenerateResult result).text = t := by
  have hlen : 0 < (extractToolCalls result).length := List.length_pos.mpr hcalls
  have hsteps : 0 < (result.steps.getD []).length := by
    cases hfind : (result.steps.getD []).reverse.find? (fun s =>
        match s.text with
        | some t => decide (t ≠ "")
        | none => false) with
    | none =>
      rw [lastStepText, hfind] at hstep
      exact absurd hstep (by simp)
    | some s =>
      have hmem := List.mem_reverse.mp (List.mem_of_find?_eq_some hfind)
      cases hna : result.steps.getD [] with
      | nil => rw [hna] at hmem; exact absurd hmem (List.not_mem_nil s)
      | cons a l => simp [hna]
  show (if result.text = "" ∧ 0 < (extractToolCalls result).length
        ∧ 0 < (result.steps.getD []).length then
      match lastStepText (result.steps.getD []) with
      | some t => t
      | none => result.text
    else result.text) = t
  rw [if_pos ⟨htext, hlen, hsteps⟩, hstep]

/-- C5 amended witness: a two-part response whose single step holds a tool
call and trailing text "tail". -/
theorem normalize_step_text_fallback_witness :
    (normalizeGenerateResult
      ⟨"", none,
        some [⟨some "tail", some [⟨"create_project", "id1", some (Jx.obj []), none⟩], none⟩],
        none⟩).text = "tail" :=
  normalize_step_text_fallback _ "tail" rfl
    (by
      rw [show extractToolCalls
          ⟨"", none,
            some [⟨some "tail", some [⟨"create_project", "id1", some (Jx.obj []), none⟩], none⟩],
            none⟩
        = [⟨"create_project", Jx.obj [], none⟩] from rfl]
      exact List.cons_ne_nil _ _)
    rfl

/-! ## Pipeline Orchestrator: `runPipeline` from `pipeline/index.ts`

The three downstream stage calls (`runBuilder`, `runVerifier`,
`buildProject`) are passed in as functions; wall-clock durations are not
modelled (every `durationMs` is 0), but the `timings` array records which
steps ran, in order, exactly as the source pushes them. The embedding is a
total function: every path returns a `PipelineResult`. -/

/-- A planned file (`PlanFile` of `pipeline/types.ts`). -/
structure PlanFile where
  path : String
  description : String

/-- `PlanTechStack` of `pipeline/types.ts` (enumerated options as strings). -/
structure PlanTechStack where
  styling : String
  interactivity : String
  dataStorage : String
  runtime : String
  charts : Bool
  icons : Bool

/-- `PlanResult` of `pipeline/types.ts`. At runtime `mode` is a string; the
source's final result even uses the value "code", which is outside the
`ProjectMode` union, so modes are modelled as strings. -/
structure PlanResult where
  mode : String
  taskSummary : String
  techStack : PlanTechStack
  files : List PlanFile
  designNotes : String
  complexityEstimate : String

/-- The planner-step outcome consumed by `runPipeline`. -/
structure PlannerResult where
  plan : PlanResult
  usage : Option StepUsage

/-- `BuildResult` of `pipeline/types.ts`. -/
structure BuildResult where
  files : List ProjectFile
  textResponse : Option String
  usage : Option StepUsage

/-- The `buildProject` outcome (`ProjectBuildResult` fields used by
`runPipeline`). -/
structure BuildOutput where
  success : Bool
  projectDir : String
  zipPath : String
  files : List String
  totalSize : Nat
  error : Option String

/-- `StepTiming` of `pipeline/types.ts`; durations are wall-clock and not
modelled. -/
structure StepTiming where
  step : String
  durationMs : Nat
deriving DecidableEq

/-- `PipelineResult` of `pipeline/types.ts`. -/
structure PipelineResult where
  mode : String
  textResponse : String
  zipPath : Option String
  files : Option (List ProjectFile)
  projectDir : Option String
  issuesFixed : Option (List String)
  timings : List StepTiming
  totalUsage : StepUsage

/-- `addUsage(a, b)`. -/
def addUsage (a : StepUsage) (b : Option StepUsage) : StepUsage :=
  match b with
  | none => a
  | some b =>
    ⟨a.promptTokens + b.promptTokens, a.completionTokens + b.completionTokens,
      a.totalTokens + b.totalTokens⟩

/-- Replace each maximal run of characters satisfying `p` with one `rep`. -/
def replaceRunsAux (p : Char → Bool) (rep : Char) (inRun : Bool) : List Char → List Char
  | [] => []
  | c :: rest =>
    if p c then
      if inRun then replaceRunsAux p rep true rest
      else rep :: replaceRunsAux p rep true rest
    else c :: replaceRunsAux p rep false rest

/-- `slugify(text)`: lowercase, drop characters outside [a-z0-9\s-], collapse
whitespace runs to "-", collapse dash runs, truncate to 40, strip one
trailing dash. -/
def slugify (text : String) : String :=
  let l0 := (strToLower text).data
  let l1 := l0.filter fun c =>
    ('a' ≤ c && c ≤ 'z') || ('0' ≤ c && c ≤ '9') || isJsWs c || c = '-'
  let l2 := replaceRunsAux isJsWs '-' false l1
  let l3 := replaceRunsAux (fun c => c = '-') '-' false l2
  let l4 := l3.take 40
  ⟨if l4.reverse.head? = some '-' then l4.dropLast else l4⟩

/-- `buildSubmissionMessage(taskSummary, files, issuesFixed)`. -/
def buildSubmissionMessage (taskSummary : String) (files : List String)
    (issuesFixed : List String) : String :=
  let lines :=
    ["## " ++ taskSummary, "",
      "I've built your project and packaged it as a zip file. Here's what's included:",
      ""]
    ++ files.map (fun f => "- `" ++ f ++ "`")
    ++ ["",
      "**To get started:** Extract the zip and open `index.html` in any modern browser. No installation or build step required."]
  let lines :=
    if 0 < issuesFixed.length then
      lines
        ++ ["",
          "**Quality checks:** The project was reviewed and the following issues were automatically corrected:"]
        ++ issuesFixed.map (fun issue => "- " ++ issue)
    else lines
  String.intercalate "\n" lines

/-- `runPipeline(options)`: planner, then the text-mode fast path, builder,
the empty-build text fallback, verifier, zip with its own text fallback, and
the final code-mode result. -/
def runPipeline (plannerResult : PlannerResult)
    (builder : PlanResult → BuildResult)
    (verifier : List ProjectFile → VerifyResult)
    (zipper : String → List ProjectFile → BuildOutput) : PipelineResult :=
  let totalUsage := addUsage ⟨0, 0, 0⟩ plannerResult.usage
  let plan := plannerResult.plan
  if plan.mode = "text" then
    let buildResult := builder plan
    { mode := "text"
      textResponse := buildResult.textResponse.getD ""
      zipPath := none, files := none, projectDir := none, issuesFixed := none
      timings := [⟨"planner", 0⟩, ⟨"builder", 0⟩]
      totalUsage := addUsage totalUsage buildResult.usage }
  else
    let buildResult := builder plan
    let totalUsage := addUsage totalUsage buildResult.usage
    if buildResult.files.length = 0 then
      { mode := "text"
        textResponse := buildResult.textResponse.getD
          "I was unable to generate the project files. Please try again."
        zipPath := none, files := none, projectDir := none, issuesFixed := none
        timings := [⟨"planner", 0⟩, ⟨"builder", 0⟩]
        totalUsage := totalUsage }
    else
      let verifyResult := verifier buildResult.files
      let totalUsage := addUsage totalUsage verifyResult.usage
      let buildOutput := zipper (slugify plan.taskSummary) verifyResult.files
      if buildOutput.success = false then
        { mode := "text"
          textResponse := "The project was built but could not be packaged. Please try again."
          zipPath := none, files := none, projectDir := none, issuesFixed := none
          timings := [⟨"planner", 0⟩, ⟨"builder", 0⟩, ⟨"verifier", 0⟩, ⟨"zip", 0⟩]
          totalUsage := totalUsage }
      else
        { mode := "code"
          textResponse := buildSubmissionMessage plan.taskSummary buildOutput.files
            verifyResult.issuesFound
          zipPath := some buildOutput.zipPath
          files := some verifyResult.files
          projectDir := some buildOutput.projectDir
          issuesFixed := if 0 < verifyResult.issuesFound.length
            then some verifyResult.issuesFound else none
          timings := [⟨"planner", 0⟩, ⟨"builder", 0⟩, ⟨"verifier", 0⟩, ⟨"zip", 0⟩]
          totalUsage := totalUsage }

/-- C6: when the Build Stage returns an empty file list for an
artifact-producing (non-text) mode, a PipelineResult is still returned with
mode "text" and the builder's raw text (or the generic failure message); the
verifier and zip steps never run — the timings record only planner and
builder, and the result does not depend on the verifier or zipper at all. -/
theorem runPipeline_empty_build (pr : PlannerResult)
    (builder : PlanResult → BuildResult)
    (verifier : List ProjectFile → VerifyResult)
    (zipper : String → List ProjectFile → BuildOutput)
    (hmode : pr.plan.mode ≠ "text")
    (hempty : (builder pr.plan).files = []) :
    (runPipeline pr builder verifier zipper).mode = "text"
    ∧ (runPipeline pr builder verifier zipper).textResponse
        = (builder pr.plan).textResponse.getD
            "I was unable to generate the project files. Please try again."
    ∧ (runPipeline pr builder verifier zipper).timings.map StepTiming.step
        = ["planner", "builder"]
    ∧ ∀ (verifier2 : List ProjectFile → VerifyResult)
        (zipper2 : String → List ProjectFile → BuildOutput),
        runPipeline pr builder verifier2 zipper2 = runPipeline pr builder verifier zipper := by
  have hred : ∀ (v : List ProjectFile → VerifyResult)
      (z : String → List ProjectFile → BuildOutput),
      runPipeline pr builder v z =
        { mode := "text"
          textResponse := (builder pr.plan).textResponse.getD
            "I was unable to generate the project files. Please try again."
          zipPath := none, files := none, projectDir := none, issuesFixed := none
          timings := [⟨"planner", 0⟩, ⟨"builder", 0⟩]
          totalUsage := addUsage (addUsage ⟨0, 0, 0⟩ pr.usage) (builder pr.plan).usage } := by
    intro v z
    rw [runPipeline, if_neg hmode, if_pos (by rw [hempty]; rfl)]
  refine ⟨?_, ?_, ?_, ?_⟩
  · rw [hred verifier zipper]
  · rw [hred verifier zipper]
  · rw [hred verifier zipper]
    rfl
  · intro v2 z2
    rw [hred verifier zipper, hred v2 z2]

/-- C6 witness: a concrete non-text plan whose builder yields no files. -/
theorem runPipeline_empty_build_witness :
    (runPipeline
      ⟨⟨"website", "demo", ⟨"tailwind", "alpine", "none", "browser", false, false⟩,
        [], "", "low"⟩, none⟩
      (fun _ => ⟨[], some "raw text", none⟩)
      (fun fs => ⟨fs, [], false, none⟩)
      (fun _ _ => ⟨true, "d", "z", [], 0, none⟩)).mode = "text"
    ∧ (runPipeline
      ⟨⟨"website", "demo", ⟨"tailwind", "alpine", "none", "browser", false, false⟩,
        [], "", "low"⟩, none⟩
      (fun _ => ⟨[], some "raw text", none⟩)
      (fun fs => ⟨fs, [], false, none⟩)
      (fun _ _ => ⟨true, "d", "z", [], 0, none⟩)).textResponse = "raw text" := by
  have h := runPipeline_empty_build
    ⟨⟨"website", "demo", ⟨"tailwind", "alpine", "none", "browser", false, false⟩,
      [], "", "low"⟩, none⟩
    (fun _ => ⟨[], some "raw text", none⟩)
    (fun fs => ⟨fs, [], false, none⟩)
    (fun _ _ => ⟨true, "d", "z", [], 0, none⟩)
    (by decide) rfl
  exact ⟨h.1, h.2.1⟩

end Sprintly
